import Mathlib

/-!
# A verification model of `RateLimitedAnalyzer`

This file gives a shallow embedding of the queue / rate-limiter / drain-loop
core of `RateLimitedAnalyzer` (TypeScript) and proves the behavioural
properties stated in the specification against it.

Modelling conventions:

* JavaScript is single threaded: an `async` method runs synchronously until its
  first `await` on a pending promise, and resumption of an awaited continuation
  (including the whole microtask chain up to the next `await`) is atomic with
  respect to other callbacks.  We therefore model an execution as a sequence of
  atomic *actions*: an `enqueue` call (which includes the synchronous prefix of
  `processQueue` up to its first suspension), the completion of an
  `analyzeItem` await (which includes outcome delivery and the next loop
  iteration up to its suspension), the wake-up of a rate-limit sleep, the
  firing of a scheduled `setTimeout` rejection, and a `clear` call.
* Each suspended activation of the `processQueue` while-loop is a *loop
  instance* carried in the state; the source intends at most one, but the model
  keeps a list so that the actual behaviour (which can create more than one)
  is representable.
* Machine time is a `Nat` (milliseconds); actions carry the `Date.now()` value
  at which they occur and are ignored (no-ops) if time would run backwards or a
  sleep would wake early, which cannot happen at runtime.
* Each submission allocates a fresh sequence number `seq` identifying its
  promise (its `callback`/`errorCallback` pair); the delivery of an outcome is
  recorded as an event in a trace.  `windowStarts` is a ghost counter recording
  how many units began execution since the last rate-window reset; it is
  incremented exactly where the `started` event is emitted and zeroed exactly
  where `requestCount` is zeroed.
-/

set_option autoImplicit false

namespace RateLimitedAnalyzer

/-- `AnalyzerConfig['rateLimit']` from `src/types/index.ts`. -/
structure Config where
  requestsPerSecond : Nat
  maxQueueSize : Nat
  priorityLevels : Nat
deriving DecidableEq

/-- A `QueueItem`.  `seq` is the identity of the promise created by the
`enqueue` call (the `callback`/`errorCallback` pair); `id`, `priority` and
`timestamp` are the source fields.  The opaque `data` payload is irrelevant to
every claim and omitted. -/
structure QueueItem where
  seq : Nat
  id : Nat
  priority : Nat
  timestamp : Nat
deriving DecidableEq

/-- Observable callback events.  `started` marks the moment a unit is shifted
off the queue and `analyzeItem` is invoked; the other four are the possible
single resolutions of a unit's promise. -/
inductive Ev where
  | started (seq : Nat)
  | succeeded (seq : Nat)
  | failed (seq : Nat)
  | rejected (seq : Nat)
  | cleared (seq : Nat)
deriving DecidableEq

/-- A suspended activation of the `processQueue` while-loop: either awaiting
`analyzeItem(item)` (suspended in `sleep(100)`, resumable from `wake`), or
awaiting the rate-limit `sleep(waitTime)` (resumable from `wake`). -/
inductive LoopInst where
  | executing (item : QueueItem) (wake : Nat)
  | rateWaiting (wake : Nat)
deriving DecidableEq

/-- The instantaneous state of one `RateLimitedAnalyzer` plus the bookkeeping
described in the file header. -/
structure State where
  queue : List QueueItem
  loops : List LoopInst
  timers : List Nat
  trace : List Ev
  processing : Bool
  pendingCount : Int
  requestCount : Nat
  lastResetTime : Nat
  windowStarts : Nat
  time : Nat
  nextSeq : Nat
deriving DecidableEq

/-- `Math.max(0, Math.min(priority, this.config.priorityLevels - 1))`. -/
def clampPriority (cfg : Config) (p : Int) : Nat :=
  (max 0 (min p ((cfg.priorityLevels : Int) - 1))).toNat

/-- `insertByPriority`: scan from the front, insert immediately before the
first item of strictly lower priority, else push at the back. -/
def insertByPriority (item : QueueItem) : List QueueItem → List QueueItem
  | [] => [item]
  | q :: rest =>
    if q.priority < item.priority then item :: q :: rest
    else q :: insertByPriority item rest

/-- The rate-window reset check at the top of each loop iteration:
`if (now - this.lastResetTime >= 1000) { this.requestCount = 0;
this.lastResetTime = now; }` (plus the ghost `windowStarts`). -/
def windowReset (s : State) (now : Nat) : State :=
  if 1000 ≤ now - s.lastResetTime then
    { s with requestCount := 0, lastResetTime := now, windowStarts := 0 }
  else s

/-- One pass from the top of the `processQueue` while-loop to the next
suspension point, at time `now`: check the loop guard `queue.length > 0`
(on failure the loop exits and its `finally` clears `processing`), run the
window-reset check, then either suspend in the rate-limit sleep
(`requestCount >= requestsPerSecond` and `waitTime > 0`) or shift the head
item, increment `requestCount` and begin executing it (suspending in
`analyzeItem`, whose first await is `sleep(100)`).  Returns the successor
state and the suspended loop instance, if the loop did not exit. -/
def loopTop (cfg : Config) (s0 : State) (now : Nat) : State × Option LoopInst :=
  match s0.queue with
  | [] => ({ s0 with processing := false }, none)
  | item :: rest =>
    let s := windowReset s0 now
    if cfg.requestsPerSecond ≤ s.requestCount ∧ 0 < 1000 - (now - s.lastResetTime) then
      (s, some (.rateWaiting (now + (1000 - (now - s.lastResetTime)))))
    else
      ({ s with queue := rest,
                requestCount := s.requestCount + 1,
                windowStarts := s.windowStarts + 1,
                trace := s.trace ++ [.started item.seq] },
       some (.executing item (now + 100)))

/-- The synchronous effect of a `processQueue()` call: return immediately if
`processing` is set or the queue is empty; otherwise set `processing`, enter
the loop and run to the first suspension point. -/
def startLoop (cfg : Config) (s : State) (now : Nat) : State :=
  if s.processing || s.queue.isEmpty then s
  else
    match loopTop cfg { s with processing := true } now with
    | (s2, none) => s2
    | (s2, some inst) => { s2 with loops := s2.loops ++ [inst] }

/-- Resumption of suspended loop instance `i`: re-enter at the top of the
while-loop; if the loop exits the instance disappears, otherwise it is
replaced by its next suspension. -/
def resume (cfg : Config) (s : State) (i : Nat) (now : Nat) : State :=
  match loopTop cfg s now with
  | (s2, none) => { s2 with loops := s2.loops.eraseIdx i }
  | (s2, some inst) => { s2 with loops := s2.loops.set i inst }

/-- The schedulable atomic actions (see the file header). -/
inductive Act where
  | enq (now : Nat) (priority : Int) (id : Nat)
  | finish (i : Nat) (now : Nat) (ok : Bool)
  | wakeRate (i : Nat) (now : Nat)
  | fireTimer (now : Nat)
  | clear (now : Nat)
deriving DecidableEq

/-- One atomic action.  Actions that could not occur at runtime (time running
backwards, resuming a sleep before its wake time, resuming a non-existent loop
instance, firing a timer that is not pending) leave the state unchanged.

* `enq now p id` — `enqueue(data, p, id)` at time `now`: if
  `pendingCount >= maxQueueSize`, schedule an asynchronous `QueueFullError`
  rejection (`setTimeout(..., 0)`) and change nothing else; otherwise build the
  item with clamped priority, insert by priority, increment `pendingCount` and
  call `processQueue()`.
* `finish i now ok` — the `await this.analyzeItem(item)` of loop instance `i`
  completes at `now` (`ok` distinguishes the `try` and `catch` arms): deliver
  the outcome, decrement `pendingCount` (the `finally`), and continue the loop.
* `wakeRate i now` — the rate-limit `sleep` of loop instance `i` returns;
  `continue` re-enters the loop.
* `fireTimer now` — the oldest scheduled `QueueFullError` rejection fires.
* `clear now` — `clear()`: reject every queued item with `QueueClearedError`,
  empty the queue, clear `processing`, zero `pendingCount`. -/
def step (cfg : Config) (s : State) (a : Act) : State :=
  match a with
  | .enq now p id =>
    if now < s.time then s
    else if (cfg.maxQueueSize : Int) ≤ s.pendingCount then
      { s with time := now, timers := s.timers ++ [s.nextSeq], nextSeq := s.nextSeq + 1 }
    else
      startLoop cfg
        { s with time := now,
                 queue := insertByPriority
                   { seq := s.nextSeq, id := id,
                     priority := clampPriority cfg p, timestamp := now } s.queue,
                 pendingCount := s.pendingCount + 1,
                 nextSeq := s.nextSeq + 1 } now
  | .finish i now ok =>
    match s.loops.get? i with
    | some (.executing item wake) =>
      if now < s.time || now < wake then s
      else
        resume cfg
          { s with time := now,
                   trace := s.trace ++ [if ok then Ev.succeeded item.seq else Ev.failed item.seq],
                   pendingCount := s.pendingCount - 1 } i now
    | _ => s
  | .wakeRate i now =>
    match s.loops.get? i with
    | some (.rateWaiting wake) =>
      if now < s.time || now < wake then s
      else resume cfg { s with time := now } i now
    | _ => s
  | .fireTimer now =>
    if now < s.time then s
    else
      match s.timers with
      | [] => s
      | q :: rest => { s with time := now, timers := rest, trace := s.trace ++ [Ev.rejected q] }
  | .clear now =>
    if now < s.time then s
    else
      { s with time := now,
               trace := s.trace ++ s.queue.map (fun it => Ev.cleared it.seq),
               queue := [], processing := false, pendingCount := 0 }

/-- The freshly constructed analyzer (`lastResetTime = Date.now()`, taken as
time origin `0`). -/
def init : State :=
  { queue := [], loops := [], timers := [], trace := [], processing := false,
    pendingCount := 0, requestCount := 0, lastResetTime := 0, windowStarts := 0,
    time := 0, nextSeq := 0 }

/-- Run a schedule of actions from the initial state. -/
def run (cfg : Config) (acts : List Act) : State :=
  acts.foldl (step cfg) init

/-- The sequence numbers of the units that began execution, in order. -/
def startedSeqs (t : List Ev) : List Nat :=
  t.filterMap (fun e => match e with | .started q => some q | _ => none)

/-- Is `e` a terminal resolution of unit `q`?  (`started` is not a
resolution; the other four events each invoke one of the unit's two callbacks
once.) -/
def isTerminalFor (q : Nat) : Ev → Bool
  | .started _ => false
  | .succeeded r => r == q
  | .failed r => r == q
  | .rejected r => r == q
  | .cleared r => r == q

/-- How many times unit `q`'s callbacks have been invoked. -/
def delivered (s : State) (q : Nat) : Nat :=
  s.trace.countP (isTerminalFor q)

/-- Does loop instance `l` hold (execute) unit `q`? -/
def pLoopFor (q : Nat) : LoopInst → Bool
  | .executing it _ => it.seq == q
  | .rateWaiting _ => false

/-- The obligation carried toward unit `q` by the loop instance a `loopTop`
pass returned. -/
def instCount (q : Nat) : Option LoopInst → Nat
  | some inst => if pLoopFor q inst then 1 else 0
  | none => 0

/-- The obligations toward unit `q` held outside the loop instances: a slot in
the admission queue, or a scheduled rejection timer, plus the deliveries
already made. -/
def partialLedger (s : State) (q : Nat) : Nat :=
  delivered s q + s.queue.countP (fun it => it.seq == q)
    + s.timers.countP (fun r => r == q)

/-- How many outstanding obligations the system holds toward unit `q`: a slot
in the admission queue, an executing loop instance, or a scheduled rejection
timer. -/
def obligations (s : State) (q : Nat) : Nat :=
  s.queue.countP (fun it => it.seq == q)
  + s.loops.countP (pLoopFor q)
  + s.timers.countP (fun r => r == q)

/-- The exactly-once ledger: deliveries performed plus deliveries still owed. -/
def ledger (s : State) (q : Nat) : Nat :=
  delivered s q + obligations s q

/-! ## The default work function's complexity metric (`calculateComplexity`)

JavaScript objects live on a heap and may be self-referential, so values are
modelled as references into an explicit heap: `JsVal.obj r` points at heap
entry `r`, a list of `(key, value)` fields; `JsVal.null` is `null` (for which
`typeof` is `'object'` but which `calculateComplexity` and the child check
exclude explicitly); `JsVal.prim` covers every non-object value.

The source `traverse(obj, depth)` returns immediately when `depth > 5` and
otherwise, for each own key, increments `complexity` and recurses into object
children at `depth + 1`.  The model carries the remaining budget
`fuel = 6 - depth` instead of `depth` (so the entry guard `depth > 5` is
`fuel = 0`), which is the same function and makes termination structural even
on cyclic heaps.  `traverseObj h fuel r` is the `complexity` contribution of
`traverse(heapObject r, 6 - fuel)`; `traverseFields h f fields` is the
contribution of the `for`-loop over `fields`, whose object children are
traversed with remaining budget `f`. -/

/-- A JavaScript value: `null`, a non-object primitive, or a reference to a
heap object. -/
inductive JsVal where
  | null
  | prim
  | obj (r : Nat)
deriving DecidableEq

/-- A heap: entry `r` is the field list of object `r` (objects absent from the
heap read as having no own keys). -/
abbrev Heap : Type := List (List (String × JsVal))

mutual

/-- `traverse(obj_r, depth)` with `fuel = 6 - depth`: at `fuel = 0` the guard
`depth > 5` fires and nothing is counted; otherwise iterate the fields with
child budget `fuel - 1`. -/
def traverseObj (h : Heap) (fuel : Nat) (r : Nat) : Int :=
  match fuel with
  | 0 => 0
  | f + 1 => traverseFields h f (h.getD r [])
termination_by (fuel, 0, 0)

/-- The `for (const key in obj)` loop: each own key adds `complexity++`, and
each object (non-null) child is traversed with the remaining budget `f`. -/
def traverseFields (h : Heap) (f : Nat) (fields : List (String × JsVal)) : Int :=
  match fields with
  | [] => 0
  | (_, v) :: rest =>
    1 + (match v with
         | JsVal.obj r => traverseObj h f r
         | _ => 0)
      + traverseFields h f rest
termination_by (f, 1, fields.length)

end

/-- `calculateComplexity(data)`: `0` for `null` and non-objects, else
`traverse(data)` starting at `depth = 0`, i.e. with budget `6`. -/
def calculateComplexity (h : Heap) (data : JsVal) : Int :=
  match data with
  | JsVal.obj r => traverseObj h 6 r
  | _ => 0

/-- A self-referential heap: object `0` has a single field `self` pointing
back at object `0`. -/
def selfRefHeap : Heap := [[("self", JsVal.obj 0)]]

/-! ## Concrete scenarios used by the claims -/

/-- `requestsPerSecond = 5`, `maxQueueSize = 10`, `priorityLevels = 3`. -/
def cfg3 : Config := { requestsPerSecond := 5, maxQueueSize := 10, priorityLevels := 3 }

/-- Submit low(0), high(2), medium(1) back to back at `t = 0` (the three
`enqueue` calls run in one synchronous block, so nothing can interleave), then
let each execution finish.  The units are seq `0` (low), seq `1` (high),
seq `2` (medium). -/
def actsPrio : List Act :=
  [.enq 0 0 100, .enq 0 2 101, .enq 0 1 102,
   .finish 0 100 true, .finish 0 200 true, .finish 0 300 true]

/-- Submit A(priority 2) = seq 0, B(priority 0) = seq 1, C(priority 1) = seq 2
back to back at `t = 0`, then let each execution finish. -/
def actsACB : List Act :=
  [.enq 0 2 200, .enq 0 0 201, .enq 0 1 202,
   .finish 0 100 true, .finish 0 200 true, .finish 0 300 true]

/-- Submit X(priority 0) = seq 0, then D(priority 1) = seq 1 and
E(priority 1) = seq 2 while X executes, then let each execution finish. -/
def actsDE : List Act :=
  [.enq 0 0 300, .enq 0 1 301, .enq 0 1 302,
   .finish 0 100 true, .finish 0 200 true, .finish 0 300 true]

/-- Submit a unit at `t = 0` (it starts executing at once), call `clear()` at
`t = 10` while it is executing, then submit a second unit at `t = 20`. -/
def actsTwoLoops : List Act :=
  [.enq 0 0 1, .clear 10, .enq 20 0 2]

/-- Submit a unit at `t = 0`, call `clear()` at `t = 10` while it is executing,
and let its execution finish at `t = 100`. -/
def actsClearExec : List Act :=
  [.enq 0 0 1, .clear 10, .finish 0 100 true]

/-- Is the action a `clear()` call? -/
def isClearAct : Act → Bool
  | .clear _ => true
  | _ => false

/-- A state whose pending count has reached `cfg3`'s capacity. -/
def sFull : State := { init with pendingCount := 10 }

/-- A state with two queued units and the drain flag set. -/
def sTwoQueued : State :=
  { init with queue := [⟨0, 7, 1, 0⟩, ⟨1, 8, 0, 0⟩], pendingCount := 2,
              processing := true }

/-- A state with one executing unit (held by a loop instance) and one queued
unit. -/
def sExecOneQueued : State :=
  { init with queue := [⟨1, 8, 0, 0⟩], loops := [.executing ⟨0, 7, 0, 0⟩ 100],
              pendingCount := 2, processing := true }

/-- The ordering the admission queue maintains: strictly higher priority
first, and among equal priorities the earlier-allocated (smaller `seq`,
i.e. earlier-submitted) unit first. -/
def queueRel (a b : QueueItem) : Prop :=
  b.priority < a.priority ∨ (b.priority = a.priority ∧ a.seq < b.seq)

/-! ## Frame and case-analysis lemmas -/

theorem windowReset_queue (s : State) (now : Nat) :
    (windowReset s now).queue = s.queue := by
  unfold windowReset; split <;> rfl

theorem windowReset_loops (s : State) (now : Nat) :
    (windowReset s now).loops = s.loops := by
  unfold windowReset; split <;> rfl

theorem windowReset_timers (s : State) (now : Nat) :
    (windowReset s now).timers = s.timers := by
  unfold windowReset; split <;> rfl

theorem windowReset_trace (s : State) (now : Nat) :
    (windowReset s now).trace = s.trace := by
  unfold windowReset; split <;> rfl

theorem windowReset_pendingCount (s : State) (now : Nat) :
    (windowReset s now).pendingCount = s.pendingCount := by
  unfold windowReset; split <;> rfl

theorem windowReset_nextSeq (s : State) (now : Nat) :
    (windowReset s now).nextSeq = s.nextSeq := by
  unfold windowReset; split <;> rfl

theorem windowReset_processing (s : State) (now : Nat) :
    (windowReset s now).processing = s.processing := by
  unfold windowReset; split <;> rfl

theorem windowReset_time (s : State) (now : Nat) :
    (windowReset s now).time = s.time := by
  unfold windowReset; split <;> rfl

/-- After the reset check at the top of an iteration, strictly less than a
full window has elapsed since the (possibly fresh) window start, so the
computed `waitTime` is always positive: the shift-and-increment fall-through
with `requestCount` already at the limit is unreachable. -/
theorem windowReset_elapsed_lt (s : State) (now : Nat) :
    now - (windowReset s now).lastResetTime < 1000 := by
  unfold windowReset
  split
  · simp
  · omega

/-- `windowReset` preserves the invariant tying the ghost window-start count
to `requestCount`. -/
theorem windowReset_windowStarts (s : State) (now : Nat)
    (h : s.windowStarts = s.requestCount) :
    (windowReset s now).windowStarts = (windowReset s now).requestCount := by
  unfold windowReset; split <;> simp [h]

/-- Exhaustive description of one `loopTop` pass: the loop either exits
(empty queue), suspends in the rate-limit sleep, or shifts the head item and
begins executing it.  The shift case also records that the rate-limit guard
failed, which (with `windowReset_elapsed_lt`) means
`requestCount < requestsPerSecond` at the increment. -/
theorem loopTop_cases (cfg : Config) (s : State) (now : Nat) :
    (s.queue = [] ∧ loopTop cfg s now = ({ s with processing := false }, none))
    ∨ (∃ w, loopTop cfg s now = (windowReset s now, some (.rateWaiting w)))
    ∨ (∃ item rest, s.queue = item :: rest ∧
        ¬ (cfg.requestsPerSecond ≤ (windowReset s now).requestCount ∧
            0 < 1000 - (now - (windowReset s now).lastResetTime)) ∧
        loopTop cfg s now =
          ({ windowReset s now with
               queue := rest,
               requestCount := (windowReset s now).requestCount + 1,
               windowStarts := (windowReset s now).windowStarts + 1,
               trace := (windowReset s now).trace ++ [.started item.seq] },
           some (.executing item (now + 100)))) := by
  rcases hq : s.queue with _ | ⟨item, rest⟩
  · left
    exact ⟨rfl, by simp [loopTop, hq]⟩
  · right
    by_cases hr : cfg.requestsPerSecond ≤ (windowReset s now).requestCount ∧
        0 < 1000 - (now - (windowReset s now).lastResetTime)
    · left
      refine ⟨now + (1000 - (now - (windowReset s now).lastResetTime)), ?_⟩
      simp only [loopTop, hq]
      rw [if_pos hr]
    · right
      refine ⟨item, rest, rfl, hr, ?_⟩
      simp only [loopTop, hq]
      rw [if_neg hr]

/-- `loopTop` never touches the loop-instance list, the timers, the pending
count, the allocation counter, or the clock. -/
theorem loopTop_frame (cfg : Config) (s : State) (now : Nat) :
    (loopTop cfg s now).1.loops = s.loops
    ∧ (loopTop cfg s now).1.timers = s.timers
    ∧ (loopTop cfg s now).1.pendingCount = s.pendingCount
    ∧ (loopTop cfg s now).1.nextSeq = s.nextSeq
    ∧ (loopTop cfg s now).1.time = s.time := by
  rcases loopTop_cases cfg s now with ⟨hq, h⟩ | ⟨w, h⟩ | ⟨item, rest, hq, hg, h⟩ <;>
    rw [h] <;>
    simp [windowReset_loops, windowReset_timers, windowReset_pendingCount,
      windowReset_nextSeq, windowReset_time]

/-- `resume` is `loopTop` followed by an update of the loop-instance list
only. -/
theorem resume_eq (cfg : Config) (s : State) (i : Nat) (now : Nat) :
    ∃ L, resume cfg s i now = { (loopTop cfg s now).1 with loops := L } := by
  unfold resume
  rcases h : loopTop cfg s now with ⟨s2, inst?⟩
  cases inst? with
  | none => exact ⟨s2.loops.eraseIdx i, rfl⟩
  | some inst => exact ⟨s2.loops.set i inst, rfl⟩

/-- `startLoop` either returns the state unchanged or is `loopTop` (on the
state with `processing` set) followed by an update of the loop-instance list
only. -/
theorem startLoop_eq (cfg : Config) (s : State) (now : Nat) :
    startLoop cfg s now = s
    ∨ ∃ L, startLoop cfg s now
        = { (loopTop cfg { s with processing := true } now).1 with loops := L } := by
  unfold startLoop
  split
  · exact Or.inl rfl
  · right
    rcases h : loopTop cfg { s with processing := true } now with ⟨s2, inst?⟩
    cases inst? with
    | none => exact ⟨s2.loops, rfl⟩
    | some inst => exact ⟨s2.loops ++ [inst], rfl⟩

/-! ## Induction over runs -/

theorem foldl_inv (cfg : Config) (P : State → Prop)
    (hs : ∀ s a, P s → P (step cfg s a)) :
    ∀ (l : List Act) (s : State), P s → P (l.foldl (step cfg) s)
  | [], _, h => h
  | a :: l, s, h => foldl_inv cfg P hs l (step cfg s a) (hs s a h)

theorem run_inv (cfg : Config) (P : State → Prop) (h0 : P init)
    (hs : ∀ s a, P s → P (step cfg s a)) (acts : List Act) : P (run cfg acts) :=
  foldl_inv cfg P hs acts init h0

theorem foldl_inv_guarded (cfg : Config) (P : State → Prop) (A : Act → Prop)
    (hs : ∀ s a, A a → P s → P (step cfg s a)) :
    ∀ (l : List Act) (s : State), (∀ a ∈ l, A a) → P s → P (l.foldl (step cfg) s)
  | [], _, _, h => h
  | a :: l, s, hA, h =>
    foldl_inv_guarded cfg P A hs l (step cfg s a)
      (fun b hb => hA b (List.mem_cons_of_mem a hb))
      (hs s a (hA a (List.mem_cons_self a l)) h)

/-! ## Counting lemmas -/

theorem countP_insertByPriority (item : QueueItem) (p : QueueItem → Bool) :
    ∀ q : List QueueItem,
      (insertByPriority item q).countP p
        = q.countP p + (if p item then 1 else 0)
  | [] => by simp [insertByPriority, List.countP_cons]
  | x :: rest => by
    unfold insertByPriority
    split
    · simp [List.countP_cons]
      try omega
    · simp [List.countP_cons, countP_insertByPriority item p rest]
      try omega

theorem insertByPriority_ne_nil (item : QueueItem) (q : List QueueItem) :
    insertByPriority item q ≠ [] := by
  cases q with
  | nil => simp [insertByPriority]
  | cons x rest =>
    unfold insertByPriority
    split <;> simp

theorem mem_insertByPriority (item x : QueueItem) :
    ∀ q : List QueueItem, x ∈ insertByPriority item q → x = item ∨ x ∈ q
  | [] => by simp [insertByPriority]
  | y :: rest => by
    unfold insertByPriority
    split
    · intro hx
      rcases List.mem_cons.mp hx with h | hx2
      · exact Or.inl h
      · exact Or.inr hx2
    · intro hx
      rcases List.mem_cons.mp hx with h | hx2
      · rw [h]
        exact Or.inr (List.mem_cons_self y rest)
      · rcases mem_insertByPriority item x rest hx2 with h | h
        · exact Or.inl h
        · exact Or.inr (List.mem_cons_of_mem y h)

theorem countP_set_of_get {α : Type} (p : α → Bool) :
    ∀ (l : List α) (i : Nat) (a b : α), l[i]? = some b →
      (l.set i a).countP p + (if p b then 1 else 0)
        = l.countP p + (if p a then 1 else 0)
  | [], i, _, _, h => by simp at h
  | x :: xs, 0, a, b, h => by
    simp at h
    subst h
    simp [List.countP_cons]
    try omega
  | x :: xs, i + 1, a, b, h => by
    simp at h
    have := countP_set_of_get p xs i a b h
    simp [List.countP_cons]
    try omega

theorem countP_eraseIdx_of_get {α : Type} (p : α → Bool) :
    ∀ (l : List α) (i : Nat) (b : α), l[i]? = some b →
      (l.eraseIdx i).countP p + (if p b then 1 else 0) = l.countP p
  | [], i, _, h => by simp at h
  | x :: xs, 0, b, h => by
    simp at h
    subst h
    simp [List.countP_cons]
    try omega
  | x :: xs, i + 1, b, h => by
    simp at h
    have := countP_eraseIdx_of_get p xs i b h
    simp [List.eraseIdx_cons_succ, List.countP_cons]
    try omega

theorem countP_cleared_map (q : Nat) :
    ∀ l : List QueueItem,
      (l.map (fun it => Ev.cleared it.seq)).countP (isTerminalFor q)
        = l.countP (fun it => it.seq == q)
  | [] => by simp
  | it :: rest => by
    simp [List.countP_cons, countP_cleared_map q rest, isTerminalFor]

/-! ## Complexity metric lemmas -/

theorem traverse_nonneg (h : Heap) :
    ∀ fuel : Nat, (∀ r, 0 ≤ traverseObj h fuel r)
      ∧ (∀ fields, 0 ≤ traverseFields h fuel fields) := by
  intro fuel
  induction fuel with
  | zero =>
    have hobj : ∀ r, 0 ≤ traverseObj h 0 r := by
      intro r
      simp [traverseObj]
    refine ⟨hobj, ?_⟩
    intro fields
    induction fields with
    | nil => simp [traverseFields]
    | cons fv rest ihf =>
      obtain ⟨k, v⟩ := fv
      cases v with
      | obj r =>
        have h2 := hobj r
        have h3 : traverseFields h 0 ((k, JsVal.obj r) :: rest)
            = 1 + traverseObj h 0 r + traverseFields h 0 rest := by
          simp [traverseFields]
        omega
      | null =>
        have h3 : traverseFields h 0 ((k, JsVal.null) :: rest)
            = 1 + 0 + traverseFields h 0 rest := by
          simp [traverseFields]
        omega
      | prim =>
        have h3 : traverseFields h 0 ((k, JsVal.prim) :: rest)
            = 1 + 0 + traverseFields h 0 rest := by
          simp [traverseFields]
        omega
  | succ f ih =>
    have hobj : ∀ r, 0 ≤ traverseObj h (f + 1) r := by
      intro r
      simp only [traverseObj]
      exact ih.2 _
    refine ⟨hobj, ?_⟩
    intro fields
    induction fields with
    | nil => simp [traverseFields]
    | cons fv rest ihf =>
      obtain ⟨k, v⟩ := fv
      cases v with
      | obj r =>
        have h2 := hobj r
        have h3 : traverseFields h (f + 1) ((k, JsVal.obj r) :: rest)
            = 1 + traverseObj h (f + 1) r + traverseFields h (f + 1) rest := by
          simp [traverseFields]
        omega
      | null =>
        have h3 : traverseFields h (f + 1) ((k, JsVal.null) :: rest)
            = 1 + 0 + traverseFields h (f + 1) rest := by
          simp [traverseFields]
        omega
      | prim =>
        have h3 : traverseFields h (f + 1) ((k, JsVal.prim) :: rest)
            = 1 + 0 + traverseFields h (f + 1) rest := by
          simp [traverseFields]
        omega

/-- C10.  The default work function's complexity metric is total — in
particular it is well defined on self-referential heaps, where the depth
guard (`depth > 5`, i.e. exhausted fuel) cuts the traversal off, as witnessed
by the concrete cyclic heap `selfRefHeap` on which it returns `6` (one
counted key at each of the six traversed levels); it always returns a
nonnegative integer; and it returns `0` for `null` and for every non-object
input. -/
theorem calculateComplexity_total_nonneg :
    (∀ (h : Heap) (d : JsVal), 0 ≤ calculateComplexity h d)
    ∧ (∀ h : Heap,
        calculateComplexity h JsVal.null = 0 ∧ calculateComplexity h JsVal.prim = 0)
    ∧ calculateComplexity selfRefHeap (JsVal.obj 0) = 6 := by
  refine ⟨?_, ?_, ?_⟩
  · intro h d
    cases d with
    | obj r => exact (traverse_nonneg h 6).1 r
    | null => simp [calculateComplexity]
    | prim => simp [calculateComplexity]
  · intro h
    exact ⟨rfl, rfl⟩
  · simp [calculateComplexity, selfRefHeap, traverseObj, traverseFields]

/-! ## Field-level frame lemmas for the loop wrappers -/

theorem startLoop_pendingCount (cfg : Config) (s : State) (now : Nat) :
    (startLoop cfg s now).pendingCount = s.pendingCount := by
  rcases startLoop_eq cfg s now with h | ⟨L, h⟩ <;> rw [h]
  exact (loopTop_frame cfg { s with processing := true } now).2.2.1

theorem startLoop_timers (cfg : Config) (s : State) (now : Nat) :
    (startLoop cfg s now).timers = s.timers := by
  rcases startLoop_eq cfg s now with h | ⟨L, h⟩ <;> rw [h]
  exact (loopTop_frame cfg { s with processing := true } now).2.1

theorem startLoop_nextSeq (cfg : Config) (s : State) (now : Nat) :
    (startLoop cfg s now).nextSeq = s.nextSeq := by
  rcases startLoop_eq cfg s now with h | ⟨L, h⟩ <;> rw [h]
  exact (loopTop_frame cfg { s with processing := true } now).2.2.2.1

theorem resume_pendingCount (cfg : Config) (s : State) (i now : Nat) :
    (resume cfg s i now).pendingCount = s.pendingCount := by
  rcases resume_eq cfg s i now with ⟨L, h⟩
  rw [h]
  exact (loopTop_frame cfg s now).2.2.1

theorem resume_timers (cfg : Config) (s : State) (i now : Nat) :
    (resume cfg s i now).timers = s.timers := by
  rcases resume_eq cfg s i now with ⟨L, h⟩
  rw [h]
  exact (loopTop_frame cfg s now).2.1

theorem resume_nextSeq (cfg : Config) (s : State) (i now : Nat) :
    (resume cfg s i now).nextSeq = s.nextSeq := by
  rcases resume_eq cfg s i now with ⟨L, h⟩
  rw [h]
  exact (loopTop_frame cfg s now).2.2.2.1

/-! ## C1: the capacity invariant -/

/-- C1.  Along every schedule of submissions, executions, completions and
clears, the pending counter (`pendingCount`, counting queued plus currently
executing units) never exceeds the configured capacity
(`config.maxQueueSize`): an admission only happens when
`pendingCount < maxQueueSize`, completions decrement it, and `clear()` zeroes
it. -/
theorem capacity_invariant (cfg : Config) (acts : List Act) :
    (run cfg acts).pendingCount ≤ (cfg.maxQueueSize : Int) := by
  refine run_inv cfg (fun s => s.pendingCount ≤ (cfg.maxQueueSize : Int))
    (by simp [init]) ?_ acts
  intro s a hs
  cases a with
  | enq now p id =>
    simp only [step]
    split
    · exact hs
    split
    · exact hs
    next hcap =>
      rw [startLoop_pendingCount]
      show s.pendingCount + 1 ≤ (cfg.maxQueueSize : Int)
      omega
  | finish i now ok =>
    simp only [step]
    split
    · split
      · exact hs
      · rw [resume_pendingCount]
        show s.pendingCount - 1 ≤ (cfg.maxQueueSize : Int)
        omega
    · exact hs
  | wakeRate i now =>
    simp only [step]
    split
    · split
      · exact hs
      · rw [resume_pendingCount]
        exact hs
    · exact hs
  | fireTimer now =>
    simp only [step]
    split
    · exact hs
    · split
      · exact hs
      · exact hs
  | clear now =>
    simp only [step]
    split
    · exact hs
    · show (0 : Int) ≤ (cfg.maxQueueSize : Int)
      omega

/-! ## C4: the rate-window bound -/

theorem loopTop_ws_rc (cfg : Config) (s : State) (now : Nat)
    (h1 : s.windowStarts = s.requestCount)
    (h2 : s.requestCount ≤ cfg.requestsPerSecond) :
    (loopTop cfg s now).1.windowStarts = (loopTop cfg s now).1.requestCount
    ∧ (loopTop cfg s now).1.requestCount ≤ cfg.requestsPerSecond := by
  rcases loopTop_cases cfg s now with ⟨hq, h⟩ | ⟨w, h⟩ | ⟨item, rest, hg, hguard, h⟩ <;> rw [h]
  · exact ⟨h1, h2⟩
  · refine ⟨windowReset_windowStarts s now h1, ?_⟩
    unfold windowReset
    split
    · simp
    · exact h2
  · have hW := windowReset_windowStarts s now h1
    have hlt := windowReset_elapsed_lt s now
    constructor
    · show (windowReset s now).windowStarts + 1 = (windowReset s now).requestCount + 1
      omega
    · show (windowReset s now).requestCount + 1 ≤ cfg.requestsPerSecond
      omega

theorem startLoop_ws_rc (cfg : Config) (s : State) (now : Nat)
    (h1 : s.windowStarts = s.requestCount)
    (h2 : s.requestCount ≤ cfg.requestsPerSecond) :
    (startLoop cfg s now).windowStarts = (startLoop cfg s now).requestCount
    ∧ (startLoop cfg s now).requestCount ≤ cfg.requestsPerSecond := by
  rcases startLoop_eq cfg s now with h | ⟨L, h⟩ <;> rw [h]
  · exact ⟨h1, h2⟩
  · exact loopTop_ws_rc cfg { s with processing := true } now h1 h2

theorem resume_ws_rc (cfg : Config) (s : State) (i now : Nat)
    (h1 : s.windowStarts = s.requestCount)
    (h2 : s.requestCount ≤ cfg.requestsPerSecond) :
    (resume cfg s i now).windowStarts = (resume cfg s i now).requestCount
    ∧ (resume cfg s i now).requestCount ≤ cfg.requestsPerSecond := by
  rcases resume_eq cfg s i now with ⟨L, h⟩
  rw [h]
  exact loopTop_ws_rc cfg s now h1 h2

/-- C4.  With `windowLimit = requestsPerSecond = N`, at most `N` units begin
execution per rate window: the ghost counter `windowStarts` — incremented
exactly where a unit's execution begins (the `started` event) and zeroed
exactly at a window reset — always equals `requestCount`, because
`requestCount` is incremented exactly once immediately before each execution
begins; and `requestCount` never exceeds `N` between resets, because the
drain loop only shifts a unit when `requestCount < N` (the fall-through of
the `waitTime > 0` test is unreachable: after the reset check, strictly less
than a window has elapsed). -/
theorem rate_window_bound (cfg : Config) (acts : List Act) :
    (run cfg acts).requestCount ≤ cfg.requestsPerSecond
    ∧ (run cfg acts).windowStarts = (run cfg acts).requestCount := by
  have h := run_inv cfg
    (fun s => s.windowStarts = s.requestCount
      ∧ s.requestCount ≤ cfg.requestsPerSecond)
    (by simp [init]) ?_ acts
  · exact ⟨h.2, h.1⟩
  intro s a hs
  cases a with
  | enq now p id =>
    simp only [step]
    split
    · exact hs
    split
    · exact hs
    · exact startLoop_ws_rc cfg _ now hs.1 hs.2
  | finish i now ok =>
    simp only [step]
    split
    · split
      · exact hs
      · exact resume_ws_rc cfg _ i now hs.1 hs.2
    · exact hs
  | wakeRate i now =>
    simp only [step]
    split
    · split
      · exact hs
      · exact resume_ws_rc cfg _ i now hs.1 hs.2
    · exact hs
  | fireTimer now =>
    simp only [step]
    split
    · exact hs
    · split
      · exact hs
      · exact hs
  | clear now =>
    simp only [step]
    split
    · exact hs
    · exact hs

/-! ## C5: admission control -/

/-- C5.  An `enqueue` at time `now` is rejected exactly when
`pendingCount ≥ maxQueueSize` at the moment of submission.  On rejection the
only effect is to schedule the `QueueFullError` delivery for a later timer
firing (`setTimeout(..., 0)`): the trace is unchanged (no callback runs inside
the caller's frame — the rejection is asynchronous) and so are the queue
buffer, `pendingCount`, and the rate-window counters.  On admission no
rejection is scheduled, `pendingCount` is incremented, and the unit's fresh
sequence number is allocated. -/
theorem enqueue_reject_spec (cfg : Config) (s : State) (now : Nat) (p : Int)
    (id : Nat) (ht : s.time ≤ now) :
    (((cfg.maxQueueSize : Int) ≤ s.pendingCount) →
       step cfg s (.enq now p id)
         = { s with time := now, timers := s.timers ++ [s.nextSeq],
                    nextSeq := s.nextSeq + 1 })
    ∧ ((s.pendingCount < (cfg.maxQueueSize : Int)) →
       (step cfg s (.enq now p id)).timers = s.timers
       ∧ (step cfg s (.enq now p id)).pendingCount = s.pendingCount + 1
       ∧ (step cfg s (.enq now p id)).nextSeq = s.nextSeq + 1) := by
  have hnl : ¬ now < s.time := Nat.not_lt.mpr ht
  constructor
  · intro hcap
    simp only [step, if_neg hnl, if_pos hcap]
  · intro hlt
    have hc2 : ¬ ((cfg.maxQueueSize : Int) ≤ s.pendingCount) := by omega
    simp only [step, if_neg hnl, if_neg hc2]
    refine ⟨?_, ?_, ?_⟩
    · rw [startLoop_timers]
    · rw [startLoop_pendingCount]
    · rw [startLoop_nextSeq]

/-- Witness for C5, exercising the rejection branch on a full queue
(`pendingCount = maxQueueSize = 10`) and discharging the time hypothesis. -/
theorem enqueue_reject_spec_witness :
    sFull.time ≤ 5
    ∧ ((((cfg3.maxQueueSize : Int) ≤ sFull.pendingCount) →
       step cfg3 sFull (.enq 5 0 0)
         = { sFull with time := 5, timers := sFull.timers ++ [sFull.nextSeq],
                        nextSeq := sFull.nextSeq + 1 })
    ∧ ((sFull.pendingCount < (cfg3.maxQueueSize : Int)) →
       (step cfg3 sFull (.enq 5 0 0)).timers = sFull.timers
       ∧ (step cfg3 sFull (.enq 5 0 0)).pendingCount = sFull.pendingCount + 1
       ∧ (step cfg3 sFull (.enq 5 0 0)).nextSeq = sFull.nextSeq + 1)) :=
  ⟨by decide, enqueue_reject_spec cfg3 sFull 5 0 0 (by decide)⟩

/-! ## C6: clear -/

/-- C6.  `clear()` with `k` units queued appends exactly `k`
`QueueClearedError` resolutions to the trace — one `cleared` event per queued
unit, in queue order — and leaves the buffer empty, `pendingCount = 0` and the
drain flag `processing = false`; nothing else changes. -/
theorem clear_spec (cfg : Config) (s : State) (now : Nat) (ht : s.time ≤ now) :
    step cfg s (.clear now)
      = { s with time := now,
                 trace := s.trace ++ s.queue.map (fun it => Ev.cleared it.seq),
                 queue := [], processing := false, pendingCount := 0 }
    ∧ (s.queue.map (fun it => Ev.cleared it.seq)).length = s.queue.length := by
  have hnl : ¬ now < s.time := Nat.not_lt.mpr ht
  exact ⟨by simp only [step, if_neg hnl], by simp⟩

/-- Witness for C6 on a state with two queued units (`k = 2`). -/
theorem clear_spec_witness :
    sTwoQueued.time ≤ 5
    ∧ (step cfg3 sTwoQueued (.clear 5)
      = { sTwoQueued with
            time := 5,
            trace := sTwoQueued.trace
              ++ sTwoQueued.queue.map (fun it => Ev.cleared it.seq),
            queue := [], processing := false, pendingCount := 0 }
    ∧ (sTwoQueued.queue.map (fun it => Ev.cleared it.seq)).length
        = sTwoQueued.queue.length) :=
  ⟨by decide, clear_spec cfg3 sTwoQueued 5 (by decide)⟩

/-! ## C9: clear does not touch the executing unit -/

/-- C9.  A `clear()` resolves only the units still present in the queued
buffer: the loop instances (which hold any currently executing unit, already
removed from the buffer by its dequeue) are untouched, and the appended
`cleared` events are exactly one per *queued* unit.  Concretely
(`actsClearExec`): a unit that is executing when `clear()` is called is not
resolved by it, and its outcome is later delivered normally by the drain loop
— the trace is `[started 0, succeeded 0]`, with no `cleared` event. -/
theorem clear_frames_executing (cfg : Config) (s : State) (now : Nat)
    (ht : s.time ≤ now) :
    (step cfg s (.clear now)).loops = s.loops
    ∧ (step cfg s (.clear now)).trace
        = s.trace ++ s.queue.map (fun it => Ev.cleared it.seq)
    ∧ (run cfg3 actsClearExec).trace = [Ev.started 0, Ev.succeeded 0] := by
  have hnl : ¬ now < s.time := Nat.not_lt.mpr ht
  refine ⟨?_, ?_, by decide⟩
  · simp only [step, if_neg hnl]
  · simp only [step, if_neg hnl]

/-- Witness for C9 on a state with one executing unit and one queued unit. -/
theorem clear_frames_executing_witness :
    sExecOneQueued.time ≤ 5
    ∧ ((step cfg3 sExecOneQueued (.clear 5)).loops = sExecOneQueued.loops
    ∧ (step cfg3 sExecOneQueued (.clear 5)).trace
        = sExecOneQueued.trace
          ++ sExecOneQueued.queue.map (fun it => Ev.cleared it.seq)
    ∧ (run cfg3 actsClearExec).trace = [Ev.started 0, Ev.succeeded 0]) :=
  ⟨by decide, clear_frames_executing cfg3 sExecOneQueued 5 (by decide)⟩

/-! ## C3: the three-unit priority scenario -/

/-- C3 counterexample.  With `priorityLevels = 3`, submitting low(0) = seq 0,
high(2) = seq 1, medium(1) = seq 2 back to back with no delay (`actsPrio`)
makes execution begin in the order low, high, medium (`[0, 1, 2]`), not in the
claimed order high, medium, low (`[1, 2, 0]`): the first submission starts the
drain loop synchronously inside the `enqueue` call, which dequeues the low
unit before the other two submissions insert anything. -/
theorem prio_scenario_start_order_counter :
    startedSeqs (run cfg3 actsPrio).trace = [0, 1, 2]
    ∧ ([0, 1, 2] : List Nat) ≠ [1, 2, 0] := by
  exact ⟨by decide, by decide⟩

/-- C3 as amended.  In the same scenario the low unit begins execution first —
after the three submissions it is already executing (one loop instance) and
the buffer holds exactly high(seq 1, priority 2) before medium(seq 2,
priority 1) — and the remaining units then begin execution in priority order,
so the full start order is low, high, medium. -/
theorem prio_scenario_start_order :
    startedSeqs (run cfg3 actsPrio).trace = [0, 1, 2]
    ∧ (run cfg3 (actsPrio.take 3)).queue.map (fun it => (it.seq, it.priority))
        = [(1, 2), (2, 1)]
    ∧ (run cfg3 (actsPrio.take 3)).loops.length = 1 := by
  exact ⟨by decide, by decide, by decide⟩

/-! ## C7: how many drain loops can be active -/

theorem eraseIdx_of_length_le_one {α : Type} (l : List α) (i : Nat) (x : α)
    (hlen : l.length ≤ 1) (h : l.get? i = some x) : l.eraseIdx i = [] := by
  cases l with
  | nil => simp at h
  | cons a rest =>
    cases rest with
    | nil =>
      cases i with
      | zero => rfl
      | succ j => simp at h
    | cons b r2 => simp at hlen

theorem startLoop_single (cfg : Config) (s : State) (now : Nat)
    (h1 : s.processing = false → s.loops = []) (h2 : s.loops.length ≤ 1) :
    ((startLoop cfg s now).processing = false → (startLoop cfg s now).loops = [])
    ∧ (startLoop cfg s now).loops.length ≤ 1 := by
  unfold startLoop
  split
  · exact ⟨h1, h2⟩
  next hguard =>
    have hproc : s.processing = false := by
      cases hsp : s.processing
      · rfl
      · rw [hsp] at hguard
        simp at hguard
    have hnil : s.loops = [] := h1 hproc
    rcases loopTop_cases cfg { s with processing := true } now
      with ⟨hq, hL⟩ | ⟨w, hL⟩ | ⟨item, rest, hq2, hgd, hL⟩ <;> rw [hL] <;> dsimp only
    · exact ⟨fun _ => hnil, by simp [hnil]⟩
    · constructor
      · intro hpf
        rw [windowReset_processing] at hpf
        simp at hpf
      · rw [windowReset_loops]
        simp [hnil]
    · constructor
      · intro hpf
        rw [windowReset_processing] at hpf
        simp at hpf
      · rw [windowReset_loops]
        simp [hnil]

theorem resume_single (cfg : Config) (s : State) (i now : Nat) (x : LoopInst)
    (hi : s.loops.get? i = some x)
    (h1 : s.processing = false → s.loops = []) (h2 : s.loops.length ≤ 1) :
    ((resume cfg s i now).processing = false → (resume cfg s i now).loops = [])
    ∧ (resume cfg s i now).loops.length ≤ 1 := by
  unfold resume
  rcases loopTop_cases cfg s now
    with ⟨hq, hL⟩ | ⟨w, hL⟩ | ⟨item, rest, hq2, hgd, hL⟩ <;> rw [hL] <;> dsimp only
  · have hx : s.loops.eraseIdx i = [] := eraseIdx_of_length_le_one s.loops i x h2 hi
    exact ⟨fun _ => hx, by simp [hx]⟩
  · constructor
    · intro hpf
      rw [windowReset_processing] at hpf
      rw [h1 hpf] at hi
      simp at hi
    · rw [List.length_set, windowReset_loops]
      exact h2
  · constructor
    · intro hpf
      rw [windowReset_processing] at hpf
      rw [h1 hpf] at hi
      simp at hi
    · rw [List.length_set, windowReset_loops]
      exact h2

/-- C7 counterexample.  A `clear()` issued while a unit is executing resets
the `processing` flag while the first drain loop is still suspended in its
`await`; the next submission then starts a second loop, so along
`actsTwoLoops` the state holds two simultaneously active drain-loop
instances. -/
theorem two_loops_after_clear :
    (run cfg3 actsTwoLoops).loops.length = 2 := by decide

/-- C7 as amended.  In every run containing no `clear()` call, at most one
drain-loop instance is active at a time (concurrent `submit`s never spawn a
duplicate loop); the guarantee fails only through the `clear()`-while-
executing interleaving exhibited by `two_loops_after_clear`. -/
theorem single_loop_without_clear (cfg : Config) (acts : List Act)
    (h : ∀ a ∈ acts, isClearAct a = false) :
    (run cfg acts).loops.length ≤ 1 := by
  refine (foldl_inv_guarded cfg
    (fun s => (s.processing = false → s.loops = []) ∧ s.loops.length ≤ 1)
    (fun a => isClearAct a = false) ?_ acts init h ⟨fun _ => rfl, by simp [init]⟩).2
  intro s a hA hs
  cases a with
  | enq now p id =>
    simp only [step]
    split
    · exact hs
    split
    · exact hs
    · exact startLoop_single cfg _ now hs.1 hs.2
  | finish i now ok =>
    simp only [step]
    split
    · split
      · exact hs
      · exact resume_single cfg _ i now _ (by assumption) hs.1 hs.2
    · exact hs
  | wakeRate i now =>
    simp only [step]
    split
    · split
      · exact hs
      · exact resume_single cfg _ i now _ (by assumption) hs.1 hs.2
    · exact hs
  | fireTimer now =>
    simp only [step]
    split
    · exact hs
    · split
      · exact hs
      · exact hs
  | clear now => simp [isClearAct] at hA

/-- Witness for the amended C7 on the clear-free schedule `actsPrio`. -/
theorem single_loop_without_clear_witness :
    (∀ a ∈ actsPrio, isClearAct a = false)
    ∧ (run cfg3 actsPrio).loops.length ≤ 1 :=
  ⟨by decide, single_loop_without_clear cfg3 actsPrio (by decide)⟩

/-! ## C8: the queue is priority-sorted and FIFO-stable within a tier -/

theorem pairwise_insertByPriority (item : QueueItem) :
    ∀ q : List QueueItem, q.Pairwise queueRel →
      (∀ it ∈ q, it.seq < item.seq) →
      (insertByPriority item q).Pairwise queueRel
  | [], _, _ => by simp [insertByPriority]
  | y :: rest, hp, hseq => by
    unfold insertByPriority
    split
    next hlt =>
      refine List.Pairwise.cons ?_ hp
      intro z hz
      rcases List.mem_cons.mp hz with h | h
      · rw [h]
        exact Or.inl hlt
      · have hyz := (List.pairwise_cons.mp hp).1 z h
        unfold queueRel at hyz ⊢
        omega
    next hge =>
      obtain ⟨hy, hrest⟩ := List.pairwise_cons.mp hp
      refine List.Pairwise.cons ?_
        (pairwise_insertByPriority item rest hrest
          (fun it hit => hseq it (List.mem_cons_of_mem y hit)))
      intro z hz
      rcases mem_insertByPriority item z rest hz with h | h
      · rw [h]
        have hys : y.seq < item.seq := hseq y (List.mem_cons_self y rest)
        unfold queueRel
        omega
      · exact hy z h

theorem loopTop_queue_inv (cfg : Config) (s : State) (now : Nat)
    (P : List QueueItem → Prop) (Q : List QueueItem) (hQ : s.queue = Q)
    (hP : P Q) (hTail : ∀ it rest, Q = it :: rest → P rest) :
    P (loopTop cfg s now).1.queue := by
  rcases loopTop_cases cfg s now
    with ⟨hq, hL⟩ | ⟨w, hL⟩ | ⟨item, rest, hq2, hgd, hL⟩ <;> rw [hL] <;> dsimp only
  · rw [hQ]
    exact hP
  · rw [windowReset_queue, hQ]
    exact hP
  · apply hTail item rest
    rw [← hQ, hq2]

theorem startLoop_queue_inv (cfg : Config) (s : State) (now : Nat)
    (P : List QueueItem → Prop) (Q : List QueueItem) (hQ : s.queue = Q)
    (hP : P Q) (hTail : ∀ it rest, Q = it :: rest → P rest) :
    P (startLoop cfg s now).queue := by
  rcases startLoop_eq cfg s now with h | ⟨L, h⟩ <;> rw [h]
  · rw [hQ]
    exact hP
  · dsimp only
    exact loopTop_queue_inv cfg { s with processing := true } now P Q hQ hP hTail

theorem resume_queue_inv (cfg : Config) (s : State) (i now : Nat)
    (P : List QueueItem → Prop) (Q : List QueueItem) (hQ : s.queue = Q)
    (hP : P Q) (hTail : ∀ it rest, Q = it :: rest → P rest) :
    P (resume cfg s i now).queue := by
  rcases resume_eq cfg s i now with ⟨L, h⟩
  rw [h]
  dsimp only
  exact loopTop_queue_inv cfg s now P Q hQ hP hTail

/-- C8.  After every operation the admission buffer is sorted by priority in
non-increasing order with stable FIFO inside each tier: any unit standing
before another has strictly higher priority, or equal priority and a smaller
sequence number (sequence numbers are allocated in submission order).
Consequently, on the concrete scenarios: A(priority 2) = seq 0,
B(priority 0) = seq 1, C(priority 1) = seq 2 submitted back to back begin
execution in order A, C, B (`[0, 2, 1]`), and for D(priority 1) = seq 1
submitted before E(priority 1) = seq 2 (behind an executing unit X = seq 0),
D begins execution before E (`[0, 1, 2]`). -/
theorem queue_sorted_stable :
    (∀ (cfg : Config) (acts : List Act), (run cfg acts).queue.Pairwise queueRel)
    ∧ startedSeqs (run cfg3 actsACB).trace = [0, 2, 1]
    ∧ startedSeqs (run cfg3 actsDE).trace = [0, 1, 2] := by
  refine ⟨?_, by decide, by decide⟩
  intro cfg acts
  refine (run_inv cfg
    (fun s => s.queue.Pairwise queueRel ∧ ∀ it ∈ s.queue, it.seq < s.nextSeq)
    ⟨by simp [init], by simp [init]⟩ ?_ acts).1
  intro s a hs
  obtain ⟨hp, hb⟩ := hs
  cases a with
  | enq now p id =>
    simp only [step]
    split
    · exact ⟨hp, hb⟩
    split
    · refine ⟨hp, ?_⟩
      intro it hit
      have := hb it hit
      show it.seq < s.nextSeq + 1
      omega
    · have hpA : (insertByPriority
          ⟨s.nextSeq, id, clampPriority cfg p, now⟩ s.queue).Pairwise queueRel :=
        pairwise_insertByPriority _ s.queue hp (fun it hit => hb it hit)
      have hbA : ∀ it ∈ insertByPriority
          ⟨s.nextSeq, id, clampPriority cfg p, now⟩ s.queue,
          it.seq < s.nextSeq + 1 := by
        intro it hit
        rcases mem_insertByPriority _ it s.queue hit with h | h
        · rw [h]
          exact Nat.lt_succ_self _
        · have := hb it h
          omega
      constructor
      · exact startLoop_queue_inv cfg _ now (fun q => q.Pairwise queueRel)
          (insertByPriority ⟨s.nextSeq, id, clampPriority cfg p, now⟩ s.queue)
          rfl hpA
          (fun it rest h => by
            rw [h] at hpA
            exact (List.pairwise_cons.mp hpA).2)
      · simp only [startLoop_nextSeq]
        exact startLoop_queue_inv cfg _ now
          (fun q => ∀ it2 ∈ q, it2.seq < s.nextSeq + 1)
          (insertByPriority ⟨s.nextSeq, id, clampPriority cfg p, now⟩ s.queue)
          rfl hbA
          (fun it3 rest h => by
            intro it2 hit2
            refine hbA it2 ?_
            rw [h]
            exact List.mem_cons_of_mem it3 hit2)
  | finish i now ok =>
    simp only [step]
    split
    · split
      · exact ⟨hp, hb⟩
      · constructor
        · exact resume_queue_inv cfg _ i now (fun q => q.Pairwise queueRel)
            s.queue rfl hp
            (fun it rest h => by
              rw [h] at hp
              exact (List.pairwise_cons.mp hp).2)
        · simp only [resume_nextSeq]
          exact resume_queue_inv cfg _ i now
            (fun q => ∀ it2 ∈ q, it2.seq < s.nextSeq) s.queue rfl hb
            (fun it3 rest h => by
              intro it2 hit2
              refine hb it2 ?_
              rw [h]
              exact List.mem_cons_of_mem it3 hit2)
    · exact ⟨hp, hb⟩
  | wakeRate i now =>
    simp only [step]
    split
    · split
      · exact ⟨hp, hb⟩
      · constructor
        · exact resume_queue_inv cfg _ i now (fun q => q.Pairwise queueRel)
            s.queue rfl hp
            (fun it rest h => by
              rw [h] at hp
              exact (List.pairwise_cons.mp hp).2)
        · simp only [resume_nextSeq]
          exact resume_queue_inv cfg _ i now
            (fun q => ∀ it2 ∈ q, it2.seq < s.nextSeq) s.queue rfl hb
            (fun it3 rest h => by
              intro it2 hit2
              refine hb it2 ?_
              rw [h]
              exact List.mem_cons_of_mem it3 hit2)
    · exact ⟨hp, hb⟩
  | fireTimer now =>
    simp only [step]
    split
    · exact ⟨hp, hb⟩
    · split
      · exact ⟨hp, hb⟩
      · exact ⟨hp, hb⟩
  | clear now =>
    simp only [step]
    split
    · exact ⟨hp, hb⟩
    · exact ⟨List.Pairwise.nil, by simp⟩

/-! ## C2: the exactly-once ledger -/

theorem ledger_split (s : State) (q : Nat) :
    ledger s q = partialLedger s q + s.loops.countP (pLoopFor q) := by
  unfold ledger obligations partialLedger
  omega

/-- A `loopTop` pass conserves the ledger outside the loop instances: the
obligation it removes from the queue (if it shifts an item) reappears as the
returned executing instance, and the `started` event it may emit is not a
delivery. -/
theorem loopTop_ledger (cfg : Config) (s : State) (now : Nat) (q : Nat) :
    partialLedger (loopTop cfg s now).1 q + instCount q (loopTop cfg s now).2
      = partialLedger s q := by
  rcases loopTop_cases cfg s now
    with ⟨hq, hL⟩ | ⟨w, hL⟩ | ⟨item, rest, hq2, hgd, hL⟩ <;> rw [hL] <;> dsimp only
  · simp [partialLedger, delivered, instCount]
  · simp [partialLedger, delivered, instCount, pLoopFor,
      windowReset_queue, windowReset_timers, windowReset_trace]
  · simp only [partialLedger, delivered, instCount, pLoopFor,
      windowReset_queue, windowReset_timers, windowReset_trace, hq2,
      List.countP_append, List.countP_cons, List.countP_nil]
    have hst : isTerminalFor q (Ev.started item.seq) = false := rfl
    rw [hst]
    by_cases hb : item.seq = q
    · simp [hb]
      omega
    · have hbq : (item.seq == q) = false := by
        simp [hb]
      simp only [hbq]
      simp
      try omega

theorem startLoop_ledger (cfg : Config) (s : State) (now : Nat) (q : Nat) :
    ledger (startLoop cfg s now) q = ledger s q := by
  unfold startLoop
  split
  · rfl
  · rcases hL : loopTop cfg { s with processing := true } now with ⟨s2, inst?⟩
    have hld := loopTop_ledger cfg { s with processing := true } now q
    have hlp := (loopTop_frame cfg { s with processing := true } now).1
    rw [hL] at hld hlp
    dsimp only at hld hlp
    have hpl : partialLedger { s with processing := true } q = partialLedger s q := by
      simp [partialLedger, delivered]
    rw [hpl] at hld
    cases inst? with
    | none =>
      dsimp only
      rw [ledger_split, ledger_split, hlp]
      simp only [instCount] at hld
      omega
    | some inst =>
      dsimp only
      rw [ledger_split, ledger_split]
      have hpl2 : partialLedger { s2 with loops := s2.loops ++ [inst] } q
          = partialLedger s2 q := by
        simp [partialLedger, delivered]
      have hlc : ({ s2 with loops := s2.loops ++ [inst] } : State).loops
          = s2.loops ++ [inst] := rfl
      rw [hpl2, hlc, List.countP_append, hlp]
      have hic : List.countP (pLoopFor q) [inst] = instCount q (some inst) := by
        simp [instCount, List.countP_cons]
      rw [hic]
      omega

theorem resume_ledger (cfg : Config) (s : State) (i now : Nat) (x : LoopInst)
    (hi : s.loops.get? i = some x) (q : Nat) :
    ledger (resume cfg s i now) q + (if pLoopFor q x then 1 else 0)
      = ledger s q := by
  have hiE : s.loops[i]? = some x := by
    rw [List.get?_eq_getElem?] at hi
    exact hi
  unfold resume
  rcases hL : loopTop cfg s now with ⟨s2, inst?⟩
  have hld := loopTop_ledger cfg s now q
  have hlp := (loopTop_frame cfg s now).1
  rw [hL] at hld hlp
  dsimp only at hld hlp
  cases inst? with
  | none =>
    dsimp only
    rw [ledger_split, ledger_split]
    have hpl2 : partialLedger { s2 with loops := s2.loops.eraseIdx i } q
        = partialLedger s2 q := by
      simp [partialLedger, delivered]
    have hlc : ({ s2 with loops := s2.loops.eraseIdx i } : State).loops
        = s2.loops.eraseIdx i := rfl
    rw [hpl2, hlc, hlp]
    have her := countP_eraseIdx_of_get (pLoopFor q) s.loops i x hiE
    simp only [instCount] at hld
    omega
  | some inst =>
    dsimp only
    rw [ledger_split, ledger_split]
    have hpl2 : partialLedger { s2 with loops := s2.loops.set i inst } q
        = partialLedger s2 q := by
      simp [partialLedger, delivered]
    have hlc : ({ s2 with loops := s2.loops.set i inst } : State).loops
        = s2.loops.set i inst := rfl
    rw [hpl2, hlc, hlp]
    have hst := countP_set_of_get (pLoopFor q) s.loops i inst x hiE
    have hic : instCount q (some inst) = if pLoopFor q inst then 1 else 0 := rfl
    rw [hic] at hld
    omega

theorem if_lt_succ (a n r : Nat) (hv : a = if r < n then 1 else 0) :
    a + (if n = r then 1 else 0) = if r < n + 1 then 1 else 0 := by
  by_cases h : n = r
  · subst h
    rw [if_neg (lt_irrefl n)] at hv
    rw [if_pos rfl, if_pos (Nat.lt_succ_self n)]
    omega
  · rw [if_neg h]
    by_cases h2 : r < n
    · rw [if_pos h2] at hv
      rw [if_pos (by omega)]
      omega
    · rw [if_neg h2] at hv
      rw [if_neg (by omega)]
      omega

theorem ledger_enq_reject (s : State) (now r : Nat) :
    ledger { s with time := now, timers := s.timers ++ [s.nextSeq],
                    nextSeq := s.nextSeq + 1 } r
      = ledger s r + (if s.nextSeq = r then 1 else 0) := by
  simp only [ledger, obligations, delivered, List.countP_append,
    List.countP_cons, List.countP_nil]
  by_cases h : s.nextSeq = r
  · simp [h]
    try omega
  · have hb : (s.nextSeq == r) = false := by simp [h]
    simp [hb, h]
    try omega

theorem ledger_enq_insert (s : State) (item : QueueItem) (now r : Nat) :
    ledger { s with time := now, queue := insertByPriority item s.queue,
                    pendingCount := s.pendingCount + 1,
                    nextSeq := s.nextSeq + 1 } r
      = ledger s r + (if item.seq = r then 1 else 0) := by
  simp only [ledger, obligations, delivered, countP_insertByPriority]
  by_cases h : item.seq = r
  · simp [h]
    try omega
  · have hb : (item.seq == r) = false := by simp [h]
    simp [hb, h]
    try omega

theorem ledger_clear_step (s : State) (now r : Nat) :
    ledger { s with time := now,
                    trace := s.trace ++ s.queue.map (fun it => Ev.cleared it.seq),
                    queue := [], processing := false, pendingCount := 0 } r
      = ledger s r := by
  simp only [ledger, obligations, delivered, List.countP_append,
    countP_cleared_map, List.countP_nil]
  omega

theorem ledger_fire (s : State) (now t r : Nat) (rest : List Nat)
    (hm : s.timers = t :: rest) :
    ledger { s with time := now, timers := rest,
                    trace := s.trace ++ [Ev.rejected t] } r
      = ledger s r := by
  simp only [ledger, obligations, delivered, hm, List.countP_append,
    List.countP_cons, List.countP_nil, isTerminalFor]
  by_cases h : t = r
  · simp [h]
    try omega
  · have hb : (t == r) = false := by simp [h]
    simp [hb]
    try omega

theorem ledger_finish_ev (s : State) (now r x : Nat) (ok : Bool) (e : Int) :
    ledger { s with time := now,
                    trace := s.trace
                      ++ [if ok then Ev.succeeded x else Ev.failed x],
                    pendingCount := e } r
      = ledger s r + (if x = r then 1 else 0) := by
  cases ok <;>
    simp only [ledger, obligations, delivered, List.countP_append,
      List.countP_cons, List.countP_nil, isTerminalFor, Bool.false_eq_true,
      if_true, if_false] <;>
    by_cases h : x = r
  · simp [h]
    try omega
  · have hb : (x == r) = false := by simp [h]
    simp [hb, h]
    try omega
  · simp [h]
    try omega
  · have hb : (x == r) = false := by simp [h]
    simp [hb, h]
    try omega

/-- C2.  Exactly-once delivery, as a conserved ledger: for every allocated
unit (every `q < nextSeq`), the number of callback invocations already
delivered to it plus the number of outstanding delivery obligations the system
still holds for it (a queue slot, an executing loop instance, or a scheduled
rejection timer) is exactly `1`, and it is `0` for unallocated `q`.  Hence no
unit is ever resolved twice (deliveries never exceed `1`), none is dropped
(a unit with no delivery always retains exactly one obligation, whose eventual
processing is the JavaScript runtime's timer/promise guarantee), and every
resolution is one of the two callbacks of the unit's own promise. -/
theorem exactly_once_delivery (cfg : Config) (acts : List Act) (q : Nat) :
    ledger (run cfg acts) q = if q < (run cfg acts).nextSeq then 1 else 0 := by
  refine run_inv cfg (fun s => ∀ r, ledger s r = if r < s.nextSeq then 1 else 0)
    (fun r => by simp [ledger, obligations, delivered, init]) ?_ acts q
  intro s a hs
  intro r
  cases a with
  | enq now p id =>
    simp only [step]
    split
    · exact hs r
    split
    · rw [ledger_enq_reject s now r]
      exact if_lt_succ _ s.nextSeq r (hs r)
    · rw [startLoop_ledger]
      rw [show (startLoop cfg
          { s with time := now,
                   queue := insertByPriority
                     ⟨s.nextSeq, id, clampPriority cfg p, now⟩ s.queue,
                   pendingCount := s.pendingCount + 1,
                   nextSeq := s.nextSeq + 1 } now).nextSeq
          = s.nextSeq + 1 from startLoop_nextSeq cfg _ now]
      rw [ledger_enq_insert]
      exact if_lt_succ _ s.nextSeq r (hs r)
  | finish i now ok =>
    rcases hg : s.loops.get? i with _ | inst
    · simp only [step, hg]
      exact hs r
    rcases inst with ⟨item, wake⟩ | wake
    · simp only [step, hg]
      split
      · exact hs r
      · have hres := resume_ledger cfg
          { s with time := now,
                   trace := s.trace
                     ++ [if ok then Ev.succeeded item.seq else Ev.failed item.seq],
                   pendingCount := s.pendingCount - 1 } i now
          (.executing item wake) hg r
        rw [show pLoopFor r (.executing item wake) = (item.seq == r) from rfl]
          at hres
        rw [ledger_finish_ev s now r item.seq ok (s.pendingCount - 1)] at hres
        rw [show (resume cfg
            { s with time := now,
                     trace := s.trace
                       ++ [if ok then Ev.succeeded item.seq
                           else Ev.failed item.seq],
                     pendingCount := s.pendingCount - 1 } i now).nextSeq
            = s.nextSeq from resume_nextSeq cfg _ i now]
        have hv := hs r
        simp only [beq_iff_eq] at hres
        omega
    · simp only [step, hg]
      exact hs r
  | wakeRate i now =>
    rcases hg : s.loops.get? i with _ | inst
    · simp only [step, hg]
      exact hs r
    rcases inst with ⟨item, wake⟩ | wake
    · simp only [step, hg]
      exact hs r
    · simp only [step, hg]
      split
      · exact hs r
      · have hres := resume_ledger cfg { s with time := now } i now
          (.rateWaiting wake) hg r
        rw [show pLoopFor r (.rateWaiting wake) = false from rfl] at hres
        simp only [Bool.false_eq_true, if_false, Nat.add_zero] at hres
        rw [show (resume cfg { s with time := now } i now).nextSeq
            = s.nextSeq from resume_nextSeq cfg _ i now]
        have hpl : ledger { s with time := now } r = ledger s r := rfl
        rw [hres, hpl]
        exact hs r
  | fireTimer now =>
    simp only [step]
    split
    · exact hs r
    · split
      · exact hs r
      next t rest heq =>
        rw [ledger_fire s now t r rest heq]
        exact hs r
  | clear now =>
    simp only [step]
    split
    · exact hs r
    · rw [ledger_clear_step s now r]
      exact hs r

end RateLimitedAnalyzer
